import Mathlib

/-!
Shallow embedding of the moonstar dictionary decoders (`mtu_trk.py` and
`mtu_tur.py`) and verification of their specified properties.

Modelling conventions:
 - Python strings are `List Char`; Python byte strings are `List Nat`.
 - The container file (`bytes` object) is a `Buffer`: a length plus a byte
   function.  Indexing a single byte out of range raises `IndexError` in
   Python, so it is `Option`-valued here (`byteAt`); slicing truncates
   silently in Python, and `slice` reproduces that.
 - `struct.unpack` over a short slice raises `struct.error` in Python;
   fallible reads return `Option` and failures propagate as `none`.
 - The legacy CP 857 codec is external configuration; functions taking it
   receive an arbitrary byte-to-character map `cp`.
-/

namespace Moonstar

/-- A read-only byte buffer: the in-memory container file. -/
structure Buffer where
  len : Nat
  byte : Nat → Nat

/-- `data[i]` for a Python `bytes` object: out-of-range indexing raises. -/
def byteAt (d : Buffer) (i : Nat) : Option Nat :=
  if i < d.len then some (d.byte i) else none

/-- `data[pos:pos+n]`: Python slices truncate silently at the buffer end. -/
def slice (d : Buffer) (pos n : Nat) : List Nat :=
  (List.range n).filterMap (fun k => byteAt d (pos + k))

/-- `struct.unpack("<H", data[pos:pos+2])[0]`; fails on a short slice. -/
def readU16 (d : Buffer) (pos : Nat) : Option Nat := do
  let a ← byteAt d pos
  let b ← byteAt d (pos + 1)
  pure (a + 256 * b)

/-- A buffer built from a concrete byte list (test scaffolding). -/
def listBuf (l : List Nat) : Buffer :=
  ⟨l.length, fun i => l.getD i 0⟩

namespace Trk

/-- The static suffix table of `mtu_trk.py` (stored in MTU.EXE in the
original application, attached back by the bytecode instructions). -/
def suffixes : List (List Char) :=
  ([ -- 7-letter
    "ability", "ibility", "iveness", "ization", "fulness",
    "ousness",
    -- 6-letter
    "ectomy", "edness", "liness", "ically", "lessly",
    -- 5-letter
    "ality", "alism", "antly", "arian", "ating",
    "ation", "ative", "atory", "berry", "board",
    "bound", "ering", "esque", "fully", "house",
    "ially", "iness", "ingly", "ional", "istic",
    "ition", "ively", "ivity", "light", "ology",
    "orium", "ously", "stone", "ually",
    -- 4-letter
    "able", "ance", "ancy", "ally", "ated",
    "back", "ball", "band", "bing", "bird",
    "boat", "bone", "book", "cide", "cule",
    "ding", "down", "ence", "ency", "ener",
    "ette", "fold", "ging", "head", "hood",
    "ible", "ical", "icle", "ings", "ious",
    "itis", "izer", "land", "less", "like",
    "line", "ling", "logy", "make", "ment",
    "ming", "ness", "ning", "ntly", "osis",
    "over", "ping", "ring", "room", "ship",
    "side", "sing", "sman", "some", "ster",
    "tail", "time", "ting", "wise", "wood",
    "work", "wort",
    -- 3-letter
    "acy", "ade", "age", "and", "ant",
    "ary", "ate", "ble", "boy", "dom",
    "end", "ent", "ery", "ese", "ess",
    "est", "eur", "ful", "ger", "ial",
    "ian", "ide", "ied", "ier", "ile",
    "ily", "ine", "ing", "ion", "ise",
    "ish", "ism", "ist", "ite", "ity",
    "ium", "ive", "ize", "kin", "ler",
    "let", "man", "med", "nce", "ned",
    "oid", "ome", "oon", "ory", "ous",
    "out", "per", "red", "rer", "sed",
    "ted", "ter", "tic", "ual", "ule",
    "ure", "way", "yer",
    -- 2-letter
    "ae", "al", "an", "ar", "by",
    "ch", "cy", "ed", "el", "en",
    "er", "et", "ey", "fy", "ia",
    "ic", "ie", "in", "is", "ly",
    "nt", "on", "or", "ow", "ry",
    "st", "th", "to", "ty", "us"] : List String).map String.toList

/-- The two-letter prefix derived from a prefix index:
`chr(ord('a') + prefix_index // 26) + chr(ord('a') + prefix_index % 26)`. -/
def prefixOf (prefix_index : Nat) : List Char :=
  [Char.ofNat (97 + prefix_index / 26), Char.ofNat (97 + prefix_index % 26)]

/-- Python `str.title()` restricted to its use in `ExpandMorpheme`, where
the receiver is a single all-letter word (a two-letter prefix): the first
character is uppercased and the rest lowercased. -/
def title : List Char → List Char
  | [] => []
  | c :: cs => c.toUpper :: cs.map Char.toLower

/-- `ExpandMorpheme` of `mtu_trk.py`: interprets one instruction byte.
Python's in-place reassignments of `prefix`/`morpheme` are folded into one
result expression per branch; `suffixes[suffix_index]` raises on an
out-of-range index, hence the `Option`. -/
def ExpandMorpheme (prefix_index : Nat) (morpheme previous_morpheme : List Char)
    (instruction suffix_index : Nat) : Option (List Char) :=
  let pfx := prefixOf prefix_index
  if instruction = 0x00 ∨ instruction = 0x12 then
    -- Nothing to do here
    some (pfx ++ morpheme)
  else if instruction = 0x20 then
    -- Capitalize word
    some (title pfx ++ morpheme)
  else if 0x40 < instruction ∧ instruction < 0x50 then
    -- Combine the first n characters of the previous morpheme with this one
    some (pfx ++ (previous_morpheme.take (instruction - 0x40) ++ morpheme))
  else if 0x60 < instruction ∧ instruction < 0x70 then
    -- Same as above, capitalized
    some (title pfx ++ (previous_morpheme.take (instruction - 0x60) ++ morpheme))
  else if instruction = 0x80 then
    -- Attach a suffix to the morpheme
    (suffixes.get? suffix_index).map (fun s => pfx ++ (morpheme ++ s))
  else if instruction = 0xA0 then
    -- Same as above, capitalized
    (suffixes.get? suffix_index).map (fun s => title pfx ++ (morpheme ++ s))
  else if 0xC0 < instruction ∧ instruction < 0xD0 then
    -- Combine first n characters of the previous morpheme, then attach a suffix
    (suffixes.get? suffix_index).map
      (fun s => pfx ++ (previous_morpheme.take (instruction - 0xC0) ++ (morpheme ++ s)))
  else if 0xE0 < instruction ∧ instruction < 0xF0 then
    -- Same as above, capitalized
    (suffixes.get? suffix_index).map
      (fun s => title pfx ++ (previous_morpheme.take (instruction - 0xE0) ++ (morpheme ++ s)))
  else
    some (pfx ++ morpheme)

/-- The instruction bytes given semantics by `ExpandMorpheme`'s branches. -/
def recognizedInstruction (c : Nat) : Prop :=
  c = 0x00 ∨ c = 0x12 ∨ c = 0x20 ∨ (0x41 ≤ c ∧ c ≤ 0x4F) ∨ (0x61 ≤ c ∧ c ≤ 0x6F) ∨
  c = 0x80 ∨ c = 0xA0 ∨ (0xC1 ≤ c ∧ c ≤ 0xCF) ∨ (0xE1 ≤ c ∧ c ≤ 0xEF)

/-- The scan `while data[pos + en_len] is not 0xFF: en_len += 1`: the
distance to the first `0xFF` byte at or after `pos`; `none` when the scan
runs past the buffer end (Python raises `IndexError`). -/
def findFF (d : Buffer) (pos : Nat) : Option Nat :=
  (List.range (d.len - pos)).find? (fun k => d.byte (pos + k) == 0xFF)

/-- Replace backticks with apostrophes (`turkish.replace('\x60', '\x27')`). -/
def replaceBackquote (s : List Char) : List Char :=
  s.map (fun c => if c = Char.ofNat 0x60 then Char.ofNat 0x27 else c)

/-- Replace the sense separator (U+00A0 after CP 857 decoding) with `#`. -/
def replaceSeparator (s : List Char) : List Char :=
  s.map (fun c => if c = Char.ofNat 0xA0 then '#' else c)

/-- Lines 152–172 of `mtu_trk.py`: resolve the Turkish translation of one
entry.  `pos` points at the 3-byte middle-endian offset field; `cp` is the
CP 857 byte-to-character table. -/
def readTranslation (cp : Nat → Char) (d : Buffer) (base pos : Nat) : Option (List Char) := do
  let b0 ← byteAt d pos
  let b1 ← byteAt d (pos + 1)
  let b2 ← byteAt d (pos + 2)
  -- Offsets of Turkish entries are middle-endian
  let tr_offset := b1 ||| (b2 <<< 8) ||| (b0 <<< 16)
  if 0 < tr_offset then do
    let tr_len ← readU16 d (base + tr_offset)
    if 0 < tr_len then
      pure (replaceSeparator (replaceBackquote ((slice d (base + tr_offset + 2) tr_len).map cp)))
    else
      pure []
  else
    pure []

/-- The decoded state after one entry of the `ReadFile` loop. -/
structure TrkEntry where
  english : List Char
  turkish : List Char
  newPos : Nat
  newPrev : List Char
deriving DecidableEq, Repr

/-- Lines 136–140 of `ReadFile`: the suffix parameter byte read after an
instruction of `0x80` or above, together with the advanced position
(`suffix_index` defaults to 0 otherwise). -/
def readSuffixParam (d : Buffer) (instruction pos : Nat) : Option (Nat × Nat) :=
  -- Instructions above 0x80 are followed by a suffix parameter
  if 0x80 ≤ instruction then (byteAt d pos).map (fun b => (b, pos + 1))
  else some (0, pos)

/-- One iteration of the entry loop of `ReadFile` (lines 132–175):
reads the instruction byte, the optional suffix parameter, the
0xFF-terminated morpheme, expands it, and resolves the translation.
`i` is the prefix index of the enclosing offset-map bucket. -/
def readEntry (cp : Nat → Char) (d : Buffer) (base i pos : Nat)
    (previous_word : List Char) : Option TrkEntry := do
  let instruction ← byteAt d pos
  let pos := pos + 1
  let sp ← readSuffixParam d instruction pos
  let suffix_index := sp.1
  let pos := sp.2
  -- English entries are terminated by a 0xFF character
  let en_len ← findFF d pos
  let english ← ExpandMorpheme i ((slice d pos en_len).map cp) previous_word
      instruction suffix_index
  let previous_word := english.drop 2 -- No need to store the prefix
  let pos := pos + en_len + 1
  let turkish ← readTranslation cp d base pos
  let pos := pos + 3
  pure ⟨english, turkish, pos, previous_word⟩

end Trk

namespace Tur

/-- The custom dictionary alphabet of MTU.TUR: byte 0x00 is `a`, 0x01 is
`b`, and so on. -/
def alphabet : List Char :=
  "abcçdefgğhıijklmnoöpqrsştuüvwxyzâ..........î..............û".toList

/-- `GetSuffixLength` of `mtu_tur.py`. -/
def GetSuffixLength (value : Nat) : Option Nat :=
  -- 0x00-0x08: 0, 0x08-0x10: 1, 0x10-0x18: 2, (...), 0xb0-0xb8: 22
  if value < 0xB8 then
    some (value / 8)
  -- 0xb8-0xd0: 3, 0xd0-0xe8: 4, 0xe8-0x100: 5
  else if value < 0x100 then
    some (3 + (value - 0xB8) / 0x18)
  else
    none

/-- `GetSuffixReodered` of `mtu_tur.py`.  Python slice semantics:
`suffix[-1] + suffix[:-1]` is `drop (n-1) ++ take (n-1)` and
`suffix[1:] + suffix[0]` is `drop 1 ++ take 1` for non-empty `suffix`
(Python would raise on an empty one; the function is only reached with a
suffix of length ≥ 3 when `value ≥ 0xB8`). -/
def GetSuffixReodered (suffix : List Char) (value : Nat) : List Char :=
  if 0xB8 ≤ value then
    let v := (value - 0xB8) % 0x18
    if v < 0x08 then
      -- 'abcd' -> 'dabc'
      suffix.drop (suffix.length - 1) ++ suffix.take (suffix.length - 1)
    else if v < 0x10 then
      -- 'abcd' -> 'bcda'
      suffix.drop 1 ++ suffix.take 1
    else if v < 0x18 then
      -- 'abcd' -> 'dcba'
      suffix.reverse
    else
      suffix
  else
    suffix

/-- `GetSuffix` of `mtu_tur.py`: derive a suffix from a 4-byte section-4
record, either directly from alphabet indices or from the suffix blob. -/
def GetSuffix (d : Buffer) (instructions : List Nat) (base_offset : Nat) :
    Option (List Char) := do
  let b1 ← instructions.get? 1
  let suffix_length ← GetSuffixLength b1
  let sfx ←
    if suffix_length = 0 then
      pure []
    -- One/Two-letter suffixes are formed directly from our custom alphabet.
    else if suffix_length ≤ 2 then
      (List.range suffix_length).mapM (fun i => do
        let idx ← instructions.get? (2 + i)
        alphabet.get? idx)
    -- For anything else, we need to read the suffix from the 5th section.
    else do
      let a ← instructions.get? 2
      let b ← instructions.get? 3
      let off := a + 256 * b
      (List.range suffix_length).mapM (fun i => do
        let index ← byteAt d (base_offset + off + i)
        alphabet.get? index)
  pure (GetSuffixReodered sfx b1)

/-- `ByteToHex`: `format(value, '02x')` for a byte value. -/
def hexDigit (n : Nat) : Char :=
  if n < 10 then Char.ofNat (48 + n) else Char.ofNat (87 + n)

/-- `ByteToHex` of `mtu_tur.py` (two lowercase hex digits for a byte). -/
def ByteToHex (value : Nat) : List Char :=
  [hexDigit (value / 16), hexDigit (value % 16)]

/-- The trailing-consonant devoicing table
(`consonants = {'b': 'p', 'c': 'ç', 'd': 't', 'g': 'k', 'ğ': 'k'}`). -/
def consonants (c : Char) : Option Char :=
  if c = 'b' then some 'p'
  else if c = 'c' then some 'ç'
  else if c = 'd' then some 't'
  else if c = 'g' then some 'k'
  else if c = 'ğ' then some 'k'
  else none

/-- `consonants.get(c, c)`: the devoiced counterpart, or the character
itself when it has none. -/
def devoice (c : Char) : Char :=
  match consonants c with
  | some c2 => c2
  | none => c

/-- `ApplyModifications` of `mtu_tur.py`.  The `data` argument is the
4-byte section-6 modification record; the implemented (TEMP) body only
devoices a trailing consonant of the suffix. -/
def ApplyModifications (data : List Nat) (pfx sfx : List Char) :
    List Char × List Char :=
  match sfx.getLast? with
  | some c =>
    match consonants c with
    | some c2 => (pfx, sfx.dropLast ++ [c2])
    | none => (pfx, sfx)
  | none => (pfx, sfx)

/-- The inner loop of `ReadDictionaryEntries`: decode `count` consecutive
entries of one prefix bucket, starting at section-4 index `item_index`
(an `Int`, since Python computes bucket counts by subtraction).  The
`prefix` variable is rebound by the tuple assignment from
`ApplyModifications`, so it is threaded through the recursion. -/
def pyGet {α : Type} (l : List α) (i : Int) : Option α :=
  if 0 ≤ i then l.get? i.toNat
  else if -i ≤ (l.length : Int) then l.get? (l.length - (-i).toNat)
  else none

/-- Decode the entries of one prefix bucket (lines 184–209). -/
def processPrefix (d : Buffer) (base : Nat) (s4 s6 : List (List Nat)) :
    List Char → Int → Nat → Option (List (List Char))
  | _, _, 0 => some []
  | pfx, item_index, Nat.succ n => do
    let record ← pyGet s4 item_index
    let sfx ← GetSuffix d record base
    let section6_index ← record.get? 0
    let modrec ← s6.get? section6_index
    let res := ApplyModifications modrec pfx sfx
    let pfx2 := res.1
    let sfx2 := res.2
    -- TEMP debug output prepended to every entry
    let r1 ← record.get? 1
    let r0 ← record.get? 0
    let debug := ByteToHex (r1 % 8) ++ "    ".toList ++
      ByteToHex r1 ++ " ".toList ++ ByteToHex r0 ++ " ".toList ++ "   ".toList
    let rest ← processPrefix d base s4 s6 pfx2 (item_index + 1) n
    pure ((debug ++ pfx2 ++ sfx2) :: rest)

/-- `ReadDictionaryEntries` of `mtu_tur.py`: walk the prefix table and
decode each bucket; the final argument is the running `item_index`. -/
def ReadDictionaryEntries (d : Buffer) (base : Nat) :
    List (List Char × Int) → List (List Nat) → List (List Nat) → Int →
    Option (List (List Char))
  | [], _, _, _ => some []
  | (pfx, count) :: rest, s4, s6, item_index =>
    if count = 0 then
      ReadDictionaryEntries d base rest s4 s6 item_index
    else do
      let es ← processPrefix d base s4 s6 pfx item_index count.toNat
      let ds ← ReadDictionaryEntries d base rest s4 s6 (item_index + count)
      pure (es ++ ds)

/-- Read `n` consecutive little-endian 16-bit values starting at `pos`. -/
def readU16Seq (d : Buffer) (pos : Nat) : Nat → Option (List Nat)
  | 0 => some []
  | Nat.succ n => do
    let v ← readU16 d pos
    let rest ← readU16Seq d (pos + 2) n
    pure (v :: rest)

/-- The prefix-table conversion of `Import` (lines 250–255): for each
consecutive pair of cumulative section-2 offsets, the two-letter prefix at
that index and the entry count `section2[i+1] - section2[i]` (a Python
int, hence `Int`).  The loop over `range(0, len(section2) - 1)` is
rendered as a pairwise walk of the list carrying the index `i`. -/
def buildPrefixes : Nat → List Nat → Option (List (List Char × Int))
  | _, [] => some []
  | _, [_] => some []
  | i, a :: b :: rest => do
    let c1 ← alphabet.get? (i / 32)
    let c2 ← alphabet.get? (i % 32)
    let ps ← buildPrefixes (i + 1) (b :: rest)
    pure (([c1, c2], (b : Int) - (a : Int)) :: ps)

/-- The per-index entry counts `offsets[i+1] - offsets[i]` of a cumulative
offset table (the quantity named `entry_count` by the specification). -/
def pairDiffs : List Nat → List Int
  | a :: b :: rest => ((b : Int) - (a : Int)) :: pairDiffs (b :: rest)
  | _ => []

/-- `Import` of `mtu_tur.py`: parse the seven parts of MTU.TUR and decode
the dictionary entries.  The magic number is skipped, not checked. -/
def Import (d : Buffer) : Option (List (List Char)) := do
  -- Skip magic number ("0x4D 0x47 0x32 0x1A")
  let pos := 4
  -- Read header
  let header ← readU16Seq d pos 4
  let pos := pos + 8
  let h0 ← header.get? 0
  let h1 ← header.get? 1
  let h2 ← header.get? 2
  let h3 ← header.get? 3
  let letter_count := 32
  -- 1st section (lookup table, letter_count + 1 entries)
  let _section1 ← readU16Seq d pos (letter_count + 1)
  let pos := pos + 2 * (letter_count + 1)
  -- 2nd section (cumulative offsets for two-letter prefixes)
  let section2 ← readU16Seq d pos (letter_count * letter_count + 1)
  let pos := pos + 2 * (letter_count * letter_count + 1)
  let ps ← buildPrefixes 0 section2
  -- 3rd section (header[1] records of 14 bytes; the 16-bit value at each
  -- record's offset 1 is read and discarded)
  let _section3 ← (List.range h1).mapM (fun k => readU16 d (pos + 14 * k + 1))
  let pos := pos + 14 * h1
  -- 4th section (header[0] records of 4 bytes; slices truncate silently)
  let section4 := (List.range h0).map (fun k => slice d (pos + 4 * k) 4)
  let pos := pos + 4 * h0
  -- 5th section: plain-text suffixes, skipped here, read via base_offset
  let base_offset := pos
  let pos := pos + h2
  -- 6th section (header[3] records of 4 bytes)
  let section6 := (List.range h3).map (fun k => slice d (pos + 4 * k) 4)
  ReadDictionaryEntries d base_offset ps section4 section6 0

/-- `Export` of `mtu_tur.py`: one entry per line of the output text. -/
def exportText (dictionary : List (List Char)) : List Char :=
  (dictionary.map (fun entry => entry ++ ['\n'])).flatten

/-- An all-zero buffer the size of the fixed leading sections of MTU.TUR
(4 + 8 + 66 + 2050 bytes), whose header declares every variable section
empty.  Its magic bytes are zero, not the required 4D 47 32 1A. -/
def zeroBuffer : Buffer := ⟨2128, fun _ => 0⟩

end Tur

/-! ## Theorems -/

namespace Trk

/-- C1: for every prefix index, morpheme, previous word and suffix index,
and every instruction byte `c` with `0x41 ≤ c ≤ 0x4F`, `ExpandMorpheme`
returns the two-letter prefix derived from the prefix index, then the
first `c - 0x40` characters of the previous word, then the morpheme, with
no capitalization; and in the `ReadFile` entry loop the threaded previous
word is the assembled headword with its two-letter prefix stripped. -/
theorem expand_prepend_spec :
    (∀ (prefix_index : Nat) (m prev : List Char) (instr sidx : Nat),
        0x41 ≤ instr → instr ≤ 0x4F →
        ExpandMorpheme prefix_index m prev instr sidx =
          some (prefixOf prefix_index ++ (prev.take (instr - 0x40) ++ m))) ∧
    (∀ (cp : Nat → Char) (d : Buffer) (base i pos : Nat) (prev : List Char)
        (e : TrkEntry),
        readEntry cp d base i pos prev = some e →
        e.newPrev = e.english.drop 2) := by
  constructor
  · intro pidx m prev instr sidx h1 h2
    simp only [ExpandMorpheme]
    split_ifs with c1 c2 c3 <;> first | rfl | omega
  · intro cp d base i pos prev e h
    simp only [readEntry, Option.bind_eq_bind, Option.bind_eq_some] at h
    obtain ⟨instr, hinstr, sp, hsp, en, hen, eng, heng, tur, htur, h⟩ := h
    simp only [Option.pure_def, Option.some.injEq] at h
    subst h
    rfl

/-- Witness for C1: instruction `0x43` with previous word `cathood` and
morpheme `ness` yields `aa` + `cat` + `ness`, and a concrete decoded entry
threads `previous_word = english[2:]`. -/
theorem expand_prepend_witness :
    ExpandMorpheme 0 "ness".toList "cathood".toList 0x43 0 =
      some "aacatness".toList ∧
    (TrkEntry.mk "aale".toList [] 7 "le".toList).newPrev =
      (TrkEntry.mk "aale".toList [] 7 "le".toList).english.drop 2 := by
  constructor
  · have h := expand_prepend_spec.1 0 "ness".toList "cathood".toList 0x43 0
      (by decide) (by decide)
    exact h.trans (by decide)
  · exact expand_prepend_spec.2 (fun b => Char.ofNat b)
      (listBuf [0x00, 0x6C, 0x65, 0xFF, 0, 0, 0]) 0 0 0 []
      ⟨"aale".toList, [], 7, "le".toList⟩ (by decide)

/-- C2: `ExpandMorpheme` with instruction `0x00` (likewise `0x12`, and
any instruction byte outside the recognized codes) returns exactly
`prefix + morpheme`, untransformed and uncapitalized, and does not
fail. -/
theorem expand_default_spec :
    ∀ (prefix_index : Nat) (m prev : List Char) (sidx instr : Nat),
      instr = 0x00 ∨ instr = 0x12 ∨ ¬ recognizedInstruction instr →
      ExpandMorpheme prefix_index m prev instr sidx =
        some (prefixOf prefix_index ++ m) := by
  intro pidx m prev sidx instr h
  simp only [ExpandMorpheme]
  rcases h with h | h | h
  · simp [h]
  · simp [h]
  · split_ifs with c1 c2 c3 c4 c5 c6 c7 c8 <;>
      first
        | rfl
        | exact absurd (by unfold recognizedInstruction; omega) h

/-- Witness for C2: the unrecognized instruction byte `0x50` leaves the
morpheme untouched and prepends the derived prefix. -/
theorem expand_default_witness :
    ExpandMorpheme 3 "x".toList "abc".toList 0x50 0 = some "adx".toList := by
  have h := expand_default_spec 3 "x".toList "abc".toList 0 0x50
    (Or.inr (Or.inr (by unfold recognizedInstruction; omega)))
  exact h.trans (by decide)

/-- C8: for an entry whose 3-byte middle-endian translation offset reads
succeed, a zero offset — or a zero 2-byte length at `base + offset` —
yields the empty translation with no error; when both are nonzero the
translation is the length-prefixed byte string at `base + offset` decoded
through the codec, with backquotes replaced by apostrophes and the sense
separator replaced by `#`. -/
theorem translation_lookup_spec :
    ∀ (cp : Nat → Char) (d : Buffer) (base pos b0 b1 b2 : Nat),
      byteAt d pos = some b0 → byteAt d (pos + 1) = some b1 →
      byteAt d (pos + 2) = some b2 →
      (b1 ||| (b2 <<< 8) ||| (b0 <<< 16) = 0 →
        readTranslation cp d base pos = some []) ∧
      (∀ tr_len,
        readU16 d (base + (b1 ||| (b2 <<< 8) ||| (b0 <<< 16))) = some tr_len →
        tr_len = 0 → readTranslation cp d base pos = some []) ∧
      (0 < b1 ||| (b2 <<< 8) ||| (b0 <<< 16) →
        ∀ tr_len,
          readU16 d (base + (b1 ||| (b2 <<< 8) ||| (b0 <<< 16))) = some tr_len →
          0 < tr_len →
          readTranslation cp d base pos =
            some (replaceSeparator (replaceBackquote
              ((slice d (base + (b1 ||| (b2 <<< 8) ||| (b0 <<< 16)) + 2)
                tr_len).map cp)))) := by
  intro cp d base pos b0 b1 b2 h0 h1 h2
  refine ⟨?_, ?_, ?_⟩
  · intro hz
    simp only [readTranslation, Option.bind_eq_bind, h0, h1, h2,
      Option.some_bind, Option.pure_def, hz]
    rw [if_neg (by omega)]
  · intro tr_len hlen hz
    simp only [readTranslation, Option.bind_eq_bind, h0, h1, h2,
      Option.some_bind, Option.pure_def]
    by_cases ht : 0 < b1 ||| (b2 <<< 8) ||| (b0 <<< 16)
    · rw [if_pos ht, hlen, Option.some_bind, if_neg (by omega)]
    · rw [if_neg ht]
  · intro ht tr_len hlen hpos
    simp only [readTranslation, Option.bind_eq_bind, h0, h1, h2,
      Option.some_bind, Option.pure_def]
    rw [if_pos ht, hlen, Option.some_bind, if_pos hpos]

/-- Witness for C8: a zero offset yields the empty translation, and a
nonzero offset with length 2 yields the decoded two-byte string. -/
theorem translation_lookup_witness :
    readTranslation (fun b => Char.ofNat b) (listBuf [0, 0, 0]) 0 0 =
      some [] ∧
    readTranslation (fun b => Char.ofNat b)
        (listBuf [0, 1, 0, 2, 0, 0x61, 0x62]) 2 0 =
      some ['a', 'b'] := by
  constructor
  · exact (translation_lookup_spec (fun b => Char.ofNat b) (listBuf [0, 0, 0])
      0 0 0 0 0 (by decide) (by decide) (by decide)).1 (by decide)
  · have h := (translation_lookup_spec (fun b => Char.ofNat b)
      (listBuf [0, 1, 0, 2, 0, 0x61, 0x62]) 2 0 0 1 0 (by decide) (by decide)
      (by decide)).2.2 (by decide) 2 (by decide) (by decide)
    exact h.trans (by decide)

end Trk

namespace Tur

/-- C3: for every byte value, the suffix-length derivation returns
`b / 8` below `0xB8` (a value in `0..22`) and `3 + (b - 0xB8) / 24` from
`0xB8` through `0xFF` (a value in `3..5`). -/
theorem suffix_length_spec :
    ∀ value : Nat, value < 0x100 →
      (value < 0xB8 →
        GetSuffixLength value = some (value / 8) ∧ value / 8 ≤ 22) ∧
      (0xB8 ≤ value →
        GetSuffixLength value = some (3 + (value - 0xB8) / 24) ∧
        3 ≤ 3 + (value - 0xB8) / 24 ∧ 3 + (value - 0xB8) / 24 ≤ 5) := by
  intro value hv
  constructor
  · intro h
    refine ⟨?_, by omega⟩
    unfold GetSuffixLength
    rw [if_pos h]
  · intro h
    refine ⟨?_, by omega, by omega⟩
    unfold GetSuffixLength
    rw [if_neg (by omega), if_pos (by omega)]

/-- Witness for C3 at `0xC0` (second range) and `0x10` (first range). -/
theorem suffix_length_witness :
    GetSuffixLength 0xC0 = some 3 ∧ GetSuffixLength 0x10 = some 2 := by
  constructor
  · exact ((suffix_length_spec 0xC0 (by decide)).2 (by decide)).1
  · exact ((suffix_length_spec 0x10 (by decide)).1 (by decide)).1

/-- Reorder selector at or above `0xB8` with `(v - 0xB8) % 0x18 < 8`:
rotate right by one (Python `suffix[-1] + suffix[:-1]`). -/
theorem reodered_rotR {v : Nat} (hv : 0xB8 ≤ v)
    (h : (v - 0xB8) % 0x18 < 0x08) (s : List Char) :
    GetSuffixReodered s v =
      s.drop (s.length - 1) ++ s.take (s.length - 1) := by
  unfold GetSuffixReodered
  rw [if_pos hv, if_pos h]

/-- Reorder selector with `8 ≤ (v - 0xB8) % 0x18 < 0x10`: rotate left by
one (Python `suffix[1:] + suffix[0]`). -/
theorem reodered_rotL {v : Nat} (hv : 0xB8 ≤ v)
    (h1 : 0x08 ≤ (v - 0xB8) % 0x18) (h2 : (v - 0xB8) % 0x18 < 0x10)
    (s : List Char) :
    GetSuffixReodered s v = s.drop 1 ++ s.take 1 := by
  unfold GetSuffixReodered
  rw [if_pos hv, if_neg (by omega), if_pos h2]

/-- Reorder selector with `0x10 ≤ (v - 0xB8) % 0x18`: full reversal. -/
theorem reodered_rev {v : Nat} (hv : 0xB8 ≤ v)
    (h : 0x10 ≤ (v - 0xB8) % 0x18) (s : List Char) :
    GetSuffixReodered s v = s.reverse := by
  unfold GetSuffixReodered
  rw [if_pos hv, if_neg (by omega), if_neg (by omega),
    if_pos (by omega : (v - 0xB8) % 0x18 < 0x18)]

/-- Rotating `t ++ [a]` right by one slice arithmetic yields `a :: t`. -/
theorem rotR_concat (t : List Char) (a : Char) :
    (t ++ [a]).drop ((t ++ [a]).length - 1) ++
      (t ++ [a]).take ((t ++ [a]).length - 1) = a :: t := by
  have hlen : (t ++ [a]).length - 1 = t.length := by simp
  rw [hlen, List.drop_left, List.take_left]
  rfl

/-- Rotating `a :: t` left by one slice arithmetic yields `t ++ [a]`. -/
theorem rotL_cons (a : Char) (t : List Char) :
    (a :: t).drop 1 ++ (a :: t).take 1 = t ++ [a] := by
  simp

/-- C4: for every non-empty suffix, applying the full-reversal reorder
transform twice is the identity, and the rotate-right transform composed
with the rotate-left transform (either way around) is the identity, the
three transforms being the buckets of `(byte1 - 0xB8) % 24` selected by
`GetSuffixReodered`. -/
theorem reorder_roundtrip :
    ∀ (s : List Char), s ≠ [] →
    ∀ v1 v2 v3 : Nat,
      0xB8 ≤ v1 → 0x10 ≤ (v1 - 0xB8) % 0x18 →
      0xB8 ≤ v2 → (v2 - 0xB8) % 0x18 < 0x08 →
      0xB8 ≤ v3 → 0x08 ≤ (v3 - 0xB8) % 0x18 → (v3 - 0xB8) % 0x18 < 0x10 →
      GetSuffixReodered (GetSuffixReodered s v1) v1 = s ∧
      GetSuffixReodered (GetSuffixReodered s v2) v3 = s ∧
      GetSuffixReodered (GetSuffixReodered s v3) v2 = s := by
  intro s hs v1 v2 v3 h1a h1b h2a h2b h3a h3b h3c
  refine ⟨?_, ?_, ?_⟩
  · rw [reodered_rev h1a h1b, reodered_rev h1a h1b, List.reverse_reverse]
  · rcases List.eq_nil_or_concat s with rfl | ⟨t, a, rfl⟩
    · exact absurd rfl hs
    · rw [List.concat_eq_append, reodered_rotR h2a h2b, rotR_concat,
        reodered_rotL h3a h3b h3c, rotL_cons]
  · rcases s with _ | ⟨a, t⟩
    · exact absurd rfl hs
    · rw [reodered_rotL h3a h3b h3c, rotL_cons, reodered_rotR h2a h2b,
        rotR_concat]

/-- Witness for C4: a three-letter suffix with reversal selector `0xC8`,
rotate-right selector `0xB8` and rotate-left selector `0xC0`. -/
theorem reorder_roundtrip_witness :
    GetSuffixReodered (GetSuffixReodered ['x','y','z'] 0xC8) 0xC8 =
      ['x','y','z'] ∧
    GetSuffixReodered (GetSuffixReodered ['x','y','z'] 0xB8) 0xC0 =
      ['x','y','z'] ∧
    GetSuffixReodered (GetSuffixReodered ['x','y','z'] 0xC0) 0xB8 =
      ['x','y','z'] :=
  reorder_roundtrip ['x','y','z'] (by decide) 0xC8 0xB8 0xC0 (by decide)
    (by decide) (by decide) (by decide) (by decide) (by decide) (by decide)

/-- C10: the Turkish entry-modification step returns the prefix unchanged,
does not depend on the modification record, preserves the suffix length
and all characters before the last, and maps the last character through
the devoicing table. -/
theorem apply_modifications_frame :
    ∀ (d d' : List Nat) (pfx sfx : List Char),
      (ApplyModifications d pfx sfx).1 = pfx ∧
      ApplyModifications d pfx sfx = ApplyModifications d' pfx sfx ∧
      (ApplyModifications d pfx sfx).2.length = sfx.length ∧
      (ApplyModifications d pfx sfx).2.take (sfx.length - 1) =
        sfx.take (sfx.length - 1) ∧
      (ApplyModifications d pfx sfx).2.getLast? = sfx.getLast?.map devoice := by
  intro d d' pfx sfx
  cases hs : sfx.getLast? with
  | none =>
    have h0 : sfx = [] := List.getLast?_eq_none_iff.mp hs
    subst h0
    exact ⟨rfl, rfl, rfl, rfl, rfl⟩
  | some c =>
    have hne : sfx ≠ [] := by
      rintro rfl
      simp at hs
    have hpos : 0 < sfx.length := List.length_pos.mpr hne
    cases hc : consonants c with
    | none =>
      refine ⟨?_, rfl, ?_, ?_, ?_⟩
      · simp only [ApplyModifications, hs, hc]
      · simp only [ApplyModifications, hs, hc]
      · simp only [ApplyModifications, hs, hc]
      · simp only [ApplyModifications, hs, hc]
        simp only [Option.map_some', devoice, hc]
    | some c2 =>
      refine ⟨?_, rfl, ?_, ?_, ?_⟩
      · simp only [ApplyModifications, hs, hc]
      · simp only [ApplyModifications, hs, hc, List.length_append,
          List.length_dropLast, List.length_singleton]
        omega
      · simp only [ApplyModifications, hs, hc]
        rw [List.take_left' (by simp), List.dropLast_eq_take]
      · simp only [ApplyModifications, hs, hc]
        rw [List.getLast?_concat]
        simp only [Option.map_some', devoice, hc]

/-- C5 (failing-input evaluation): `ApplyModifications` given the
modification record with `byte0 = 0x0F` — documented in the source as
"first letter is capitalized" — returns the prefix and suffix without any
capitalization, identically to the all-zero record. -/
theorem apply_modifications_ignores_record :
    ApplyModifications [0x0F, 0x58, 0x01, 0x00] ['a', 'b'] ['n', 'e'] =
      (['a', 'b'], ['n', 'e']) ∧
    ApplyModifications [0x0F, 0x58, 0x01, 0x00] ['a', 'b'] ['n', 'e'] =
      ApplyModifications [0x00, 0x00, 0x00, 0x00] ['a', 'b'] ['n', 'e'] := by
  exact ⟨by decide, rfl⟩

/-- C6 (failing-input evaluation): a decoded Turkish entry line is the
TEMP debug hex dump followed by the assembled headword, not the headword
alone; `exportText` emits it verbatim plus a newline. -/
theorem read_entries_emit_debug :
    ReadDictionaryEntries (listBuf []) 0 [(['a', 'a'], 1)]
        [[0, 0, 0, 0]] [[0, 0, 0, 0]] 0 =
      some ["00    00 00    aa".toList] ∧
    "00    00 00    aa".toList ≠ ['a', 'a'] ∧
    exportText ["00    00 00    aa".toList] =
      "00    00 00    aa".toList ++ ['\n'] := by
  refine ⟨by decide, by decide, by decide⟩

/-- Reading a 16-bit value anywhere inside the all-zero buffer gives 0. -/
theorem readU16_zero (pos : Nat) (h : pos + 2 ≤ 2128) :
    readU16 zeroBuffer pos = some 0 := by
  simp only [readU16, byteAt, zeroBuffer, Option.bind_eq_bind]
  rw [if_pos (by omega : pos < 2128), if_pos (by omega : pos + 1 < 2128)]
  simp

/-- Reading a 16-bit run inside the all-zero buffer gives zeroes. -/
theorem readU16Seq_zero : ∀ (n pos : Nat), pos + 2 * n ≤ 2128 →
    readU16Seq zeroBuffer pos n = some (List.replicate n 0) := by
  intro n
  induction n with
  | zero => intro pos h; rfl
  | succ n ih =>
    intro pos h
    simp only [readU16Seq, Option.bind_eq_bind]
    rw [readU16_zero pos (by omega), Option.some_bind,
      ih (pos + 2) (by omega), Option.some_bind]
    rfl

/-- An all-zero cumulative offset table yields prefixes with count 0. -/
theorem buildPrefixes_zero : ∀ (n i : Nat), i + n ≤ 1025 →
    ∃ ps, buildPrefixes i (List.replicate n 0) = some ps ∧
      ∀ p ∈ ps, p.2 = 0 := by
  intro n
  induction n with
  | zero => intro i h; exact ⟨[], rfl, by simp⟩
  | succ n ih =>
    intro i h
    cases n with
    | zero => exact ⟨[], rfl, by simp⟩
    | succ m =>
      obtain ⟨tl, htl, htl0⟩ := ih (i + 1) (by omega)
      have hi1 : i / 32 < alphabet.length := by
        have : alphabet.length = 59 := by rfl
        omega
      have hi2 : i % 32 < alphabet.length := by
        have : alphabet.length = 59 := by rfl
        omega
      rw [List.replicate_succ] at htl
      refine ⟨([alphabet.get ⟨i / 32, hi1⟩, alphabet.get ⟨i % 32, hi2⟩],
        (0 : Int) - (0 : Int)) :: tl, ?_, ?_⟩
      · simp only [List.replicate_succ, buildPrefixes, Option.bind_eq_bind]
        rw [List.get?_eq_get hi1, Option.some_bind,
          List.get?_eq_get hi2, Option.some_bind, htl, Option.some_bind]
        rfl
      · intro p hp
        rcases List.mem_cons.mp hp with rfl | hp
        · simp
        · exact htl0 p hp

/-- A prefix table whose counts are all zero decodes to no entries. -/
theorem readEntries_zero_counts :
    ∀ (ps : List (List Char × Int)), (∀ p ∈ ps, p.2 = 0) →
    ∀ (d : Buffer) (base : Nat) (s4 s6 : List (List Nat)) (idx : Int),
      ReadDictionaryEntries d base ps s4 s6 idx = some [] := by
  intro ps
  induction ps with
  | nil => intro h d base s4 s6 idx; rfl
  | cons p rest ih =>
    intro h d base s4 s6 idx
    obtain ⟨pfx, count⟩ := p
    have hc : count = 0 := h (pfx, count) (by simp)
    simp only [ReadDictionaryEntries, if_pos hc]
    exact ih (fun q hq => h q (by simp [hq])) d base s4 s6 idx

/-- The all-zero buffer decodes successfully to an empty dictionary. -/
theorem import_zero : Tur.Import zeroBuffer = some [] := by
  have hH : readU16Seq zeroBuffer 4 4 = some [0, 0, 0, 0] :=
    (readU16Seq_zero 4 4 (by omega)).trans rfl
  have hS1 : readU16Seq zeroBuffer 12 33 = some (List.replicate 33 0) :=
    readU16Seq_zero 33 12 (by omega)
  have hS2 : readU16Seq zeroBuffer 78 1025 = some (List.replicate 1025 0) :=
    readU16Seq_zero 1025 78 (by omega)
  obtain ⟨ps, hps, hps0⟩ := buildPrefixes_zero 1025 0 (by omega)
  have hRDE := readEntries_zero_counts ps hps0
  have hg0 : ([0, 0, 0, 0] : List Nat).get? 0 = some 0 := rfl
  have hg1 : ([0, 0, 0, 0] : List Nat).get? 1 = some 0 := rfl
  have hg2 : ([0, 0, 0, 0] : List Nat).get? 2 = some 0 := rfl
  have hg3 : ([0, 0, 0, 0] : List Nat).get? 3 = some 0 := rfl
  simp only [Import, Option.bind_eq_bind, hH, Option.some_bind, hg0, hg1,
    hg2, hg3, hS1, hS2, hps, List.range_zero, List.mapM_nil, List.map_nil,
    Option.pure_def, hRDE]

/-- C7 counterexample: `zeroBuffer`'s magic bytes are all zero — not the
required `4D 47 32 1A` — yet the decode succeeds instead of failing: the
reader skips the magic without validating it. -/
theorem magic_mismatch_not_fatal :
    zeroBuffer.byte 0 = 0x00 ∧ zeroBuffer.byte 0 ≠ 0x4D ∧
      Tur.Import zeroBuffer = some [] :=
  ⟨rfl, by decide, import_zero⟩

/-- C7 amended: the reader has no `MalformedContainer` check; the magic
number is skipped unvalidated, and a declared section running past the
buffer end aborts the decode only through a failing fixed-width integer
read (here: a buffer too short to hold the 12-byte magic-plus-header
region makes the decode fail outright). -/
theorem truncated_header_fails :
    ∀ d : Buffer, d.len < 12 → Tur.Import d = none := by
  intro d h
  have h11 : byteAt d 11 = none := by
    simp only [byteAt, ite_eq_right_iff]
    omega
  have h10 : readU16 d 10 = none := by
    cases hx : byteAt d 10 <;>
      simp [readU16, Option.bind_eq_bind, hx, h11]
  have hseq : readU16Seq d 4 4 = none := by
    simp only [readU16Seq, Option.bind_eq_bind, h10, Option.none_bind]
    cases h4 : readU16 d 4 <;> cases h6 : readU16 d 6 <;>
      cases h8 : readU16 d 8 <;> simp
  simp only [Import, Option.bind_eq_bind, hseq, Option.none_bind]

/-- Witness for C7's amended statement: the empty buffer fails to
decode. -/
theorem truncated_header_fails_witness :
    (Buffer.mk 0 (fun _ => 0)).len < 12 ∧
      Tur.Import (Buffer.mk 0 (fun _ => 0)) = none :=
  ⟨by decide, truncated_header_fails (Buffer.mk 0 (fun _ => 0)) (by decide)⟩

/-- Each successful bucket decode yields exactly `count` entries. -/
theorem processPrefix_length :
    ∀ (n : Nat) (d : Buffer) (base : Nat) (s4 s6 : List (List Nat))
      (pfx : List Char) (idx : Int) (es : List (List Char)),
      processPrefix d base s4 s6 pfx idx n = some es → es.length = n := by
  intro n
  induction n with
  | zero =>
    intro d base s4 s6 pfx idx es h
    simp only [processPrefix, Option.some.injEq] at h
    subst h
    rfl
  | succ n ih =>
    intro d base s4 s6 pfx idx es h
    simp only [processPrefix, Option.bind_eq_bind, Option.bind_eq_some] at h
    obtain ⟨rec, hrec, sfx, hsfx, s6i, hs6i, modrec, hmod, r1, hr1, r0, hr0,
      rest, hrest, h⟩ := h
    simp only [Option.pure_def, Option.some.injEq] at h
    subst h
    simp [ih _ _ _ _ _ _ _ hrest]

/-- A successful decode appends `count.toNat` entries per prefix. -/
theorem readEntries_length :
    ∀ (ps : List (List Char × Int)) (d : Buffer) (base : Nat)
      (s4 s6 : List (List Nat)) (idx : Int) (dict : List (List Char)),
      ReadDictionaryEntries d base ps s4 s6 idx = some dict →
      dict.length = (ps.map (fun p => p.2.toNat)).sum := by
  intro ps
  induction ps with
  | nil =>
    intro d base s4 s6 idx dict h
    simp only [ReadDictionaryEntries, Option.some.injEq] at h
    subst h
    rfl
  | cons p rest ih =>
    intro d base s4 s6 idx dict h
    obtain ⟨pfx, count⟩ := p
    by_cases hc : count = 0
    · rw [ReadDictionaryEntries, if_pos hc] at h
      have := ih _ _ _ _ _ _ h
      simp [this, hc]
    · rw [ReadDictionaryEntries, if_neg hc] at h
      simp only [Option.bind_eq_bind, Option.bind_eq_some] at h
      obtain ⟨es, hes, ds, hds, h⟩ := h
      simp only [Option.pure_def, Option.some.injEq] at h
      subst h
      have h1 := processPrefix_length _ _ _ _ _ _ _ _ hes
      have h2 := ih _ _ _ _ _ _ hds
      simp [h1, h2]

/-- The counts produced by the prefix-table conversion are exactly the
consecutive differences of the cumulative offsets. -/
theorem buildPrefixes_counts :
    ∀ (s2 : List Nat) (i : Nat) (ps : List (List Char × Int)),
      buildPrefixes i s2 = some ps →
      ps.map (fun p => p.2) = pairDiffs s2 := by
  intro s2
  induction s2 with
  | nil =>
    intro i ps h
    simp only [buildPrefixes, Option.some.injEq] at h
    subst h
    rfl
  | cons a tail ih =>
    intro i ps h
    cases tail with
    | nil =>
      simp only [buildPrefixes, Option.some.injEq] at h
      subst h
      rfl
    | cons b rest =>
      simp only [buildPrefixes, Option.bind_eq_bind, Option.bind_eq_some] at h
      obtain ⟨c1, hc1, c2, hc2, tl, htl, h⟩ := h
      simp only [Option.pure_def, Option.some.injEq] at h
      subst h
      have := ih (i + 1) tl htl
      simp [pairDiffs, this]

/-- Weakly increasing cumulative offsets give non-negative counts. -/
theorem pairDiffs_nonneg :
    ∀ (s2 : List Nat), List.Chain' (fun a b => a ≤ b) s2 →
      ∀ x ∈ pairDiffs s2, 0 ≤ x := by
  intro s2
  induction s2 with
  | nil => intro _ x hx; simp [pairDiffs] at hx
  | cons a tail ih =>
    intro hchain x hx
    cases tail with
    | nil => simp [pairDiffs] at hx
    | cons b rest =>
      rw [List.chain'_cons] at hchain
      simp only [pairDiffs, List.mem_cons] at hx
      rcases hx with rfl | hx
      · omega
      · exact ih hchain.2 x hx

/-- Casting a sum of `toNat`s of non-negative integers back to `Int`. -/
theorem sum_toNat_eq :
    ∀ (l : List Int), (∀ x ∈ l, 0 ≤ x) →
      (((l.map Int.toNat).sum : Nat) : Int) = l.sum := by
  intro l
  induction l with
  | nil => intro _; rfl
  | cons x xs ih =>
    intro h
    simp only [List.map_cons, List.sum_cons, Nat.cast_add]
    rw [Int.toNat_of_nonneg (h x (by simp)),
      ih (fun y hy => h y (by simp [hy]))]

/-- C9: for a cumulative prefix table with weakly increasing offsets
(non-negativity is inherent to the unsigned reads), the number of entries
the decoder appends equals the sum over all prefixes of
`offsets[i+1] - offsets[i]`. -/
theorem entry_count_sum :
    ∀ (s2 : List Nat) (ps : List (List Char × Int)),
      buildPrefixes 0 s2 = some ps →
      List.Chain' (fun a b => a ≤ b) s2 →
      ∀ (d : Buffer) (base : Nat) (s4 s6 : List (List Nat))
        (dict : List (List Char)),
        ReadDictionaryEntries d base ps s4 s6 0 = some dict →
        (dict.length : Int) = (pairDiffs s2).sum := by
  intro s2 ps hps hchain d base s4 s6 dict hdict
  have h1 := readEntries_length ps d base s4 s6 0 dict hdict
  have h2 := buildPrefixes_counts s2 0 ps hps
  have h3 : ∀ x ∈ pairDiffs s2, 0 ≤ x := pairDiffs_nonneg s2 hchain
  have h4 : ps.map (fun p => p.2.toNat) = (pairDiffs s2).map Int.toNat := by
    rw [← h2, List.map_map]
    rfl
  rw [h1, h4]
  exact sum_toNat_eq _ h3

/-- Witness for C9: the table `[0, 1]` declares one entry under the
first prefix, and the decode of that bucket yields one entry. -/
theorem entry_count_sum_witness :
    ((([("00    00 00    aa".toList : List Char)] :
        List (List Char)).length : Nat) : Int) = (pairDiffs [0, 1]).sum := by
  exact entry_count_sum [0, 1] [(['a', 'a'], 1)] (by decide)
    (by simp [List.chain'_cons, List.chain'_singleton])
    (listBuf []) 0 [[0, 0, 0, 0]] [[0, 0, 0, 0]]
    ["00    00 00    aa".toList] (by decide)

end Tur

end Moonstar
